import Mathlib

set_option maxRecDepth 100000

/-!
Verification development for the DigiMark spread-spectrum watermarking
program (`DigiMark-Cuda/DigiMark.cpp`).

The C++ program is shallowly embedded.  An image or block (`cv::Mat` of
floats) becomes a record of explicit dimensions together with an entry
function; float arithmetic is idealized over `ℚ`.  The C-style `for`
loops of `createBlocks` become a structurally recursive list of loop
indices, `assembleBlocks` becomes a structurally recursive fold of
region writes, and `cv::minMaxLoc` is modelled by a row-major fold that
keeps the first strict maximum, matching OpenCV's scan order and tie
behavior.
-/

/-- Model of a `cv::Mat` of floats: explicit dimensions and an entry
function `atv row col`. -/
structure Mat where
  rows : ℕ
  cols : ℕ
  atv : ℕ → ℕ → ℚ

/-- Fallback matrix for `List.getD`; never dereferenced in bounds. -/
def matDefault : Mat := ⟨0, 0, fun _ _ => 0⟩

/-- `cv::Mat::zeros(m, n, CV_32F)`. -/
def zeroMat (m n : ℕ) : Mat := ⟨m, n, fun _ _ => 0⟩

/-- `cv::Mat(I, cv::Rect(x, y, N, N))`: the `N×N` submatrix whose
top-left pixel is at column `x`, row `y` (`cv::Rect` takes the column
offset `x` first). -/
def subMat (I : Mat) (x y N : ℕ) : Mat :=
  ⟨N, N, fun r c => I.atv (y + r) (x + c)⟩

/-- Indices visited by the C loop `for (int i = 0; i < B; i += step)`,
starting at `i`, with enough fuel to cover all iterations.  The bound is
an integer because `M1 - N + 1` can be negative in C. -/
def forStepAux (step : ℕ) : ℕ → ℕ → ℤ → List ℕ
  | 0, _, _ => []
  | fuel + 1, i, B => if (i : ℤ) < B then i :: forStepAux step fuel (i + step) B else []

/-- Indices visited by `for (int i = 0; i < B; i += step)`. -/
def forStep (B : ℤ) (step : ℕ) : List ℕ :=
  forStepAux step (B.toNat + 1) 0 B

/-- The loop indices of `createBlocks`:
`for (int i = 0; i < M1 - N + 1; i += N)`. -/
def blockIndices (M1 N : ℕ) : List ℕ :=
  forStep ((M1 : ℤ) - N + 1) N

/-- `createBlocks(V, I, N)` (DigiMark.cpp lines 51-71): exits when the
image is not square (modelled by `none`), otherwise pushes
`Mat(I, Rect(i, j, N, N))` for `i` (column offset, outer loop) and `j`
(row offset, inner loop), both stepping by `N` below `M1 - N + 1`. -/
def createBlocks (I : Mat) (N : ℕ) : Option (List Mat) :=
  if I.rows ≠ I.cols then none
  else some ((blockIndices I.rows N).flatMap (fun i =>
    (blockIndices I.rows N).map (fun j => subMat I i j N)))

/-- Pixel `(r, c)` lies in the rectangle with top-left column `x`,
top-left row `y`, width `w`, height `h`. -/
def inRect (x y w h r c : ℕ) : Prop :=
  y ≤ r ∧ r < y + h ∧ x ≤ c ∧ c < x + w

instance (x y w h r c : ℕ) : Decidable (inRect x y w h r c) :=
  inferInstanceAs (Decidable (_ ≤ _ ∧ _ < _ ∧ _ ≤ _ ∧ _ < _))

/-- `B.copyTo(I(Rect(x, y, B.cols, B.rows)))`: overwrite the rectangle
of `I` at column `x`, row `y` with the entries of `B`. -/
def writeBlock (I B : Mat) (x y : ℕ) : Mat :=
  { rows := I.rows, cols := I.cols,
    atv := fun r c =>
      if inRect x y B.cols B.rows r c
      then B.atv (r - y) (c - x) else I.atv r c }

/-- Body of the `assembleBlocks` loop (DigiMark.cpp lines 76-83), with
the running block index `i`: block `i` is copied to
`Rect(row_num * cols, col_num * rows, cols, rows)` where
`row_num = i / n` and `col_num = i % n`. -/
def assembleBlocksAux (n : ℕ) : List Mat → ℕ → Mat → Mat
  | [], _, I => I
  | B :: rest, i, I =>
    assembleBlocksAux n rest (i + 1) (writeBlock I B ((i / n) * B.cols) ((i % n) * B.rows))

/-- `assembleBlocks(V, I, n)` (DigiMark.cpp lines 74-84). -/
def assembleBlocks (V : List Mat) (I : Mat) (n : ℕ) : Mat :=
  assembleBlocksAux n V 0 I

/-- Row-major scan order of an `rows × cols` matrix, as (row, col). -/
def rowMajorIdx (rows cols : ℕ) : List (ℕ × ℕ) :=
  (List.range rows).flatMap (fun r => (List.range cols).map (fun c => (r, c)))

/-- `cv::minMaxLoc`'s maximum location: scans in row-major order and
updates only on a strictly larger value, so the first occurrence of the
maximum value wins. -/
def maxLocFold (m : Mat) : ℕ × ℕ :=
  match rowMajorIdx m.rows m.cols with
  | [] => (0, 0)
  | p :: ps =>
    ps.foldl (fun best q => if m.atv q.1 q.2 > m.atv best.1 best.2 then q else best) p

/-- The coordinate perturbed by `placeWatermark` (DigiMark.cpp lines
91-100): `minMaxLoc` on `Vi` gives `max_loc`; `temp` is a copy with
`temp.at(max_loc) = 0`; the second `minMaxLoc` on `temp` gives the
embedding target. -/
def selectTarget (Vi : Mat) : ℕ × ℕ :=
  let max_loc := maxLocFold Vi
  maxLocFold
    { rows := Vi.rows, cols := Vi.cols,
      atv := fun r c => if (r, c) = max_loc then 0 else Vi.atv r c }

/-- Modelled from the spec, for comparison with the code's selector:
the first (row-major) location of maximum magnitude. -/
def maxMagLocSpec (m : Mat) : ℕ × ℕ :=
  match rowMajorIdx m.rows m.cols with
  | [] => (0, 0)
  | p :: ps =>
    ps.foldl (fun best q => if |m.atv q.1 q.2| > |m.atv best.1 best.2| then q else best) p

/-- Modelled from the spec (section 4.3): find the coefficient of
maximum magnitude, mask it out, and take the location of maximum
magnitude among the remaining coefficients, first in row-major order on
ties. -/
def selectTargetByMagnitude (m : Mat) : ℕ × ℕ :=
  let dc := maxMagLocSpec m
  maxMagLocSpec
    { rows := m.rows, cols := m.cols,
      atv := fun r c => if (r, c) = dc then 0 else m.atv r c }

/-- `placeWatermark(Vi, W)` (DigiMark.cpp lines 87-105):
`Vi.at(max_loc) = Vi.at(max_loc) + alpha * W` with `alpha = 0.5` at the
selected target. -/
def placeWatermark (Vi : Mat) (W : ℚ) : Mat :=
  { rows := Vi.rows, cols := Vi.cols,
    atv := fun r c =>
      if (r, c) = selectTarget Vi then Vi.atv r c + (1 / 2) * W else Vi.atv r c }

/-- The embedding loop of `main` (DigiMark.cpp lines 187-192), with the
running index `i`: block `i` receives watermark value
`W.at(i / n, i % n)`. -/
def embedBlocks (W : Mat) (n : ℕ) : ℕ → List Mat → List Mat
  | _, [] => []
  | i, B :: rest =>
    placeWatermark B (W.atv (i / n) (i % n)) :: embedBlocks W n (i + 1) rest

/-- Fuelled test for `2^p * 3^q * 5^r` numbers (structural, so that it
evaluates in the kernel). -/
def smoothAux : ℕ → ℕ → Bool
  | 0, _ => false
  | _ + 1, 0 => false
  | _ + 1, 1 => true
  | fuel + 1, m =>
    if m % 2 = 0 then smoothAux fuel (m / 2)
    else if m % 3 = 0 then smoothAux fuel (m / 3)
    else if m % 5 = 0 then smoothAux fuel (m / 5)
    else false

/-- `n` is of the form `2^p * 3^q * 5^r`: the sizes for which OpenCV's
DFT is fast, exactly the possible return values of
`cv::getOptimalDFTSize`. -/
def smooth235 (n : ℕ) : Bool := smoothAux n n

/-- Search upward for the next smooth size. -/
def nextSmooth : ℕ → ℕ → ℕ
  | 0, m => m
  | fuel + 1, m => if smooth235 m then m else nextSmooth fuel (m + 1)

/-- Modelled from the spec: `cv::getOptimalDFTSize(n)` (an external
OpenCV collaborator, documented to return the smallest
`2^p * 3^q * 5^r` number that is at least `n`). -/
def getOptimalDFTSize (n : ℕ) : ℕ := nextSmooth (n + 1) n

/-- Observable outcome of a run of `main`: the process exit status and
the image files written before termination. -/
structure RunResult where
  exitCode : ℤ
  artifactsWritten : List String

/-- Exit-status model of `main` and `processImageFromFile`
(DigiMark.cpp lines 14-40 and 107-119): `argc != 2` returns `-1`; an
empty `imread` result (undecodable file, modelled by `none`) prints a
message and calls `exit(0)`; unequal padded dimensions print a message
and call `exit(0)`; otherwise the run completes, writing the three
output images and returning 0. -/
def runMain (argc : ℕ) (decoded : Option Mat) : RunResult :=
  if argc ≠ 2 then ⟨-1, []⟩
  else
    match decoded with
    | none => ⟨0, []⟩
    | some image =>
      if getOptimalDFTSize image.rows ≠ getOptimalDFTSize image.cols then ⟨0, []⟩
      else ⟨0, ["watermark.png", "dcts.png", "lena_reassembled.png"]⟩

/-- `int N = I.rows / n` with `n = 8` (DigiMark.cpp lines 125, 162). -/
def mainBlockSide (I : Mat) : ℕ := I.rows / 8

/-- The block list `V` built by `main` (DigiMark.cpp line 164). -/
def mainBlocks (I : Mat) : List Mat :=
  (createBlocks I (mainBlockSide I)).getD []

/-- The transformed block list `Vdct` of `main` (lines 167-175), with
the per-block normalize-and-DCT step abstracted as a function. -/
def mainVdct (dct : Mat → Mat) (I : Mat) : List Mat :=
  (mainBlocks I).map dct

/-- `Mat Idct = cv::Mat::zeros(512, 512, CV_32F)` (line 178). -/
def IdctDest : Mat := zeroMat 512 512

/-- `Mat Id = cv::Mat::zeros(512, 512, CV_32F)` (line 204). -/
def IdDest : Mat := zeroMat 512 512

/-- `Mat Icd = cv::Mat::zeros(512, 512, CV_32F)` (line 233). -/
def IcdDest : Mat := zeroMat 512 512

/-- The canonical grid form of the block list: outer index is the
column band, inner index is the row band. -/
def gridList (F : ℕ → ℕ → Mat) (a m : ℕ) : List Mat :=
  (List.range a).flatMap (fun i => (List.range m).map (F i))

/-- A fully zero 2×2 block (e.g. the DCT of an all-black region). -/
def zeroBlock2 : Mat := ⟨2, 2, fun _ _ => 0⟩

/-- A fully zero 8×8 block. -/
def zeroBlock8 : Mat := ⟨8, 8, fun _ _ => 0⟩

/-- A block whose coefficient of maximum magnitude is negative. -/
def negBlock : Mat := ⟨2, 2, fun r c => if r = 0 ∧ c = 0 then -5 else 1⟩

/-- A 16 rows × 20 cols image: both sides are already optimal DFT
sizes, so they stay unequal after padding. -/
def badAspectImage : Mat := ⟨16, 20, fun _ _ => 0⟩

/-- A small block with a unique non-DC maximum, for witnesses. -/
def witnessBlock : Mat := ⟨2, 2, fun r c => ((2 * r + c : ℕ) : ℚ)⟩

/-- The 2×2 image with pixel values 0, 1, 2, 3 in row-major order. -/
def matI2 : Mat := ⟨2, 2, fun r c => ((2 * r + c : ℕ) : ℚ)⟩

/-- A 1×1 matrix holding a single value. -/
def unitMat (v : ℚ) : Mat := ⟨1, 1, fun _ _ => v⟩

/-- The 4×4 image with pixel values 0..15 in row-major order. -/
def matI4 : Mat := ⟨4, 4, fun r c => ((4 * r + c : ℕ) : ℚ)⟩

/-- The 5×5 image with pixel values r + c. -/
def matI5 : Mat := ⟨5, 5, fun r c => ((r + c : ℕ) : ℚ)⟩

/-- The 9×9 image with pixel values 0..80 in row-major order; 9 is an
optimal DFT size, so a 9×9 input is its own padded image. -/
def matI9 : Mat := ⟨9, 9, fun r c => ((9 * r + c : ℕ) : ℚ)⟩

/-- The 16×16 image with pixel values 0..255 in row-major order. -/
def matI16 : Mat := ⟨16, 16, fun r c => ((16 * r + c : ℕ) : ℚ)⟩

/-- A constant 540×540 image; 540 = 2^2 * 3^3 * 5 is the smallest
optimal DFT size above 512. -/
def matI540 : Mat := ⟨540, 540, fun _ _ => 0⟩

/-! ### Characterization of the loop index lists -/

theorem ceil_div_le_self_add_one (x step : ℕ) (hs : 0 < step) :
    (x + step - 1) / step ≤ x + 1 := by
  rcases Nat.eq_zero_or_pos x with h0 | h1
  · subst h0
    have e : 0 + step - 1 = step - 1 := by omega
    rw [e, Nat.div_eq_of_lt (by omega)]
    omega
  · have e : x + step - 1 = (x - 1) + step := by omega
    rw [e, Nat.add_div_right _ hs]
    have := Nat.div_le_self (x - 1) step
    omega

theorem forStepAux_eq (step : ℕ) (hs : 0 < step) :
    ∀ (fuel i : ℕ) (B : ℤ),
      ((B - i).toNat + step - 1) / step ≤ fuel →
      forStepAux step fuel i B
        = (List.range (((B - i).toNat + step - 1) / step)).map (fun j => i + j * step) := by
  intro fuel
  induction fuel with
  | zero =>
    intro i B h
    have h0 : ((B - (i : ℤ)).toNat + step - 1) / step = 0 := Nat.le_zero.mp h
    simp only [forStepAux]
    rw [h0]
    rfl
  | succ fuel ih =>
    intro i B h
    by_cases hib : (i : ℤ) < B
    · have hx : 1 ≤ (B - (i : ℤ)).toNat := by omega
      have hcnt : ((B - (i : ℤ)).toNat + step - 1) / step
          = ((B - (i : ℤ)).toNat - 1) / step + 1 := by
        have e : (B - (i : ℤ)).toNat + step - 1 = ((B - (i : ℤ)).toNat - 1) + step := by omega
        rw [e, Nat.add_div_right _ hs]
      have hx' : (B - ((i + step : ℕ) : ℤ)).toNat = (B - (i : ℤ)).toNat - step := by
        push_cast
        omega
      have hcnt' : (((B - (i : ℤ)).toNat - step) + step - 1) / step
          = ((B - (i : ℤ)).toNat - 1) / step := by
        by_cases hxs : step ≤ (B - (i : ℤ)).toNat
        · have e : ((B - (i : ℤ)).toNat - step) + step - 1 = (B - (i : ℤ)).toNat - 1 := by omega
          rw [e]
        · have e : ((B - (i : ℤ)).toNat - step) + step - 1 = step - 1 := by omega
          rw [e, Nat.div_eq_of_lt (by omega), Nat.div_eq_of_lt (by omega)]
      simp only [forStepAux, if_pos hib]
      rw [ih (i + step) B (by rw [hx', hcnt']; omega)]
      rw [hx', hcnt', hcnt, List.range_succ_eq_map, List.map_cons, List.map_map]
      congr 1
      · omega
      · apply List.map_congr_left
        intro a _
        simp only [Function.comp_apply, Nat.succ_eq_add_one]
        ring
    · have h0 : (B - (i : ℤ)).toNat = 0 := by omega
      simp only [forStepAux, if_neg hib, h0]
      rw [Nat.div_eq_of_lt (by omega)]
      rfl

theorem forStep_eq (B : ℤ) (step : ℕ) (hs : 0 < step) :
    forStep B step = (List.range ((B.toNat + step - 1) / step)).map (fun j => j * step) := by
  have e : (B - ((0 : ℕ) : ℤ)).toNat = B.toNat := by push_cast; omega
  have h := forStepAux_eq step hs (B.toNat + 1) 0 B
    (by rw [e]; exact ceil_div_le_self_add_one _ _ hs)
  rw [forStep, h, e]
  apply List.map_congr_left
  intro a _
  omega

theorem blockIndices_eq (M1 N : ℕ) (hN : 0 < N) :
    blockIndices M1 N = (List.range (M1 / N)).map (fun j => j * N) := by
  rw [blockIndices, forStep_eq _ _ hN]
  have hc : ((((M1 : ℤ) - N + 1).toNat + N - 1) / N) = M1 / N := by
    rcases le_or_lt N M1 with h | h
    · have e : ((M1 : ℤ) - N + 1).toNat = M1 - N + 1 := by omega
      rw [e]
      have e2 : M1 - N + 1 + N - 1 = M1 := by omega
      rw [e2]
    · have e : ((M1 : ℤ) - N + 1).toNat = 0 := by omega
      rw [e]
      have e2 : 0 + N - 1 = N - 1 := by omega
      rw [e2, Nat.div_eq_of_lt (by omega), Nat.div_eq_of_lt h]
  rw [hc]

/-! ### The grid form of the block list -/

theorem gridList_succ (F : ℕ → ℕ → Mat) (a m : ℕ) :
    gridList F (a + 1) m = gridList F a m ++ (List.range m).map (F a) := by
  rw [gridList, gridList, List.range_succ, List.flatMap_append]
  simp

theorem gridList_length (F : ℕ → ℕ → Mat) (a m : ℕ) :
    (gridList F a m).length = a * m := by
  induction a with
  | zero => simp [gridList]
  | succ a ih =>
    rw [gridList_succ, List.length_append, ih, List.length_map, List.length_range,
      Nat.succ_mul]

theorem getD_map_range (f : ℕ → Mat) (m t : ℕ) (ht : t < m) (d : Mat) :
    ((List.range m).map f).getD t d = f t := by
  rw [List.getD_eq_getElem?_getD, List.getElem?_map, List.getElem?_range ht]
  rfl

theorem gridList_getD (F : ℕ → ℕ → Mat) (a m : ℕ) :
    ∀ k, k < a * m → (gridList F a m).getD k matDefault = F (k / m) (k % m) := by
  induction a with
  | zero => intro k hk; omega
  | succ a ih =>
    intro k hk
    rw [gridList_succ]
    rcases lt_or_ge k (a * m) with h | h
    · rw [List.getD_append _ _ _ k (by rw [gridList_length]; exact h), ih k h]
    · have hsm : (a + 1) * m = a * m + m := by ring
      have hm : 0 < m := by omega
      have ht : k - a * m < m := by omega
      rw [List.getD_append_right _ _ _ k (by rw [gridList_length]; exact h),
        gridList_length, getD_map_range _ _ _ ht]
      have hdiv : k / m = a := Nat.div_eq_of_lt_le (by omega) (by omega)
      have hmod : k % m = k - a * m := by
        have e := Nat.div_add_mod k m
        rw [hdiv] at e
        have e2 : a * m = m * a := Nat.mul_comm a m
        omega
      rw [hdiv, hmod]

theorem createBlocks_eq (I : Mat) (N : ℕ) (hN : 0 < N) (hsq : I.rows = I.cols) :
    createBlocks I N
      = some (gridList (fun ci rj => subMat I (ci * N) (rj * N) N)
          (I.rows / N) (I.rows / N)) := by
  rw [createBlocks, if_neg (by omega), blockIndices_eq _ _ hN, gridList]
  rw [List.flatMap_map]
  congr 1
  apply congrArg
  funext ci
  rw [List.map_map]
  rfl

/-! ### Pixel-level behavior of the reassembly loop -/

theorem assembleBlocksAux_rows (n : ℕ) (V : List Mat) :
    ∀ (i : ℕ) (I : Mat), (assembleBlocksAux n V i I).rows = I.rows := by
  induction V with
  | nil => intro i I; rfl
  | cons B rest ih => intro i I; exact ih (i + 1) _

theorem assembleBlocksAux_cols (n : ℕ) (V : List Mat) :
    ∀ (i : ℕ) (I : Mat), (assembleBlocksAux n V i I).cols = I.cols := by
  induction V with
  | nil => intro i I; rfl
  | cons B rest ih => intro i I; exact ih (i + 1) _

theorem assembleBlocksAux_untouched (n : ℕ) (V : List Mat) :
    ∀ (i : ℕ) (I : Mat) (r c : ℕ),
      (∀ k, k < V.length →
        ¬ inRect (((i + k) / n) * (V.getD k matDefault).cols)
                 (((i + k) % n) * (V.getD k matDefault).rows)
                 (V.getD k matDefault).cols (V.getD k matDefault).rows r c) →
      (assembleBlocksAux n V i I).atv r c = I.atv r c := by
  induction V with
  | nil => intro i I r c _; rfl
  | cons B rest ih =>
    intro i I r c h
    have h0 := h 0 (by simp only [List.length_cons]; omega)
    simp only [List.getD_cons_zero, Nat.add_zero] at h0
    have hrest : ∀ k, k < rest.length →
        ¬ inRect ((((i + 1) + k) / n) * (rest.getD k matDefault).cols)
                 ((((i + 1) + k) % n) * (rest.getD k matDefault).rows)
                 (rest.getD k matDefault).cols (rest.getD k matDefault).rows r c := by
      intro k hk
      have e : i + (k + 1) = (i + 1) + k := by omega
      have hh := h (k + 1) (by simp only [List.length_cons]; omega)
      rw [List.getD_cons_succ, e] at hh
      exact hh
    simp only [assembleBlocksAux]
    rw [ih (i + 1) _ r c hrest]
    simp only [writeBlock]
    rw [if_neg h0]

theorem assembleBlocksAux_writer (n : ℕ) (V : List Mat) :
    ∀ (i : ℕ) (I : Mat) (k r c : ℕ), k < V.length →
      inRect (((i + k) / n) * (V.getD k matDefault).cols)
             (((i + k) % n) * (V.getD k matDefault).rows)
             (V.getD k matDefault).cols (V.getD k matDefault).rows r c →
      (∀ j, j < V.length → j ≠ k →
        ¬ inRect (((i + j) / n) * (V.getD j matDefault).cols)
                 (((i + j) % n) * (V.getD j matDefault).rows)
                 (V.getD j matDefault).cols (V.getD j matDefault).rows r c) →
      (assembleBlocksAux n V i I).atv r c
        = (V.getD k matDefault).atv (r - ((i + k) % n) * (V.getD k matDefault).rows)
            (c - ((i + k) / n) * (V.getD k matDefault).cols) := by
  induction V with
  | nil => intro i I k r c hk; simp at hk
  | cons B rest ih =>
    intro i I k r c hk hin huniq
    cases k with
    | zero =>
      simp only [List.getD_cons_zero, Nat.add_zero] at hin ⊢
      have hrest : ∀ j, j < rest.length →
          ¬ inRect ((((i + 1) + j) / n) * (rest.getD j matDefault).cols)
                   ((((i + 1) + j) % n) * (rest.getD j matDefault).rows)
                   (rest.getD j matDefault).cols (rest.getD j matDefault).rows r c := by
        intro j hj
        have e : i + (j + 1) = (i + 1) + j := by omega
        have hh := huniq (j + 1) (by simp only [List.length_cons]; omega) (by omega)
        rw [List.getD_cons_succ, e] at hh
        exact hh
      simp only [assembleBlocksAux]
      rw [assembleBlocksAux_untouched n rest (i + 1) _ r c hrest]
      simp only [writeBlock]
      rw [if_pos hin]
    | succ k' =>
      have hk' : k' < rest.length := by simp only [List.length_cons] at hk; omega
      have e : i + (k' + 1) = (i + 1) + k' := by omega
      simp only [List.getD_cons_succ] at hin ⊢
      rw [e] at hin ⊢
      have hrest : ∀ j, j < rest.length → j ≠ k' →
          ¬ inRect ((((i + 1) + j) / n) * (rest.getD j matDefault).cols)
                   ((((i + 1) + j) % n) * (rest.getD j matDefault).rows)
                   (rest.getD j matDefault).cols (rest.getD j matDefault).rows r c := by
        intro j hj hjk
        have e2 : i + (j + 1) = (i + 1) + j := by omega
        have hh := huniq (j + 1) (by simp only [List.length_cons]; omega) (by omega)
        rw [List.getD_cons_succ, e2] at hh
        exact hh
      simp only [assembleBlocksAux]
      rw [ih (i + 1) _ k' r c hk' hin hrest]

/-! ### Small index and arithmetic helpers -/

theorem div_eq_of_between (s a r : ℕ) (h1 : a * s ≤ r) (h2 : r < a * s + s) :
    r / s = a :=
  Nat.div_eq_of_lt_le h1 (by
    have e : (a + 1) * s = a * s + s := by ring
    omega)

theorem getD_map_of_lt (f : Mat → Mat) (l : List Mat) :
    ∀ k, k < l.length → (l.map f).getD k matDefault = f (l.getD k matDefault) := by
  induction l with
  | nil => intro k hk; simp at hk
  | cons B rest ih =>
    intro k hk
    cases k with
    | zero => rfl
    | succ k' =>
      simp only [List.map_cons, List.getD_cons_succ]
      exact ih k' (by simp only [List.length_cons] at hk; omega)

theorem embedBlocks_getD (W : Mat) (n : ℕ) (L : List Mat) :
    ∀ (j i : ℕ), i < L.length →
      (embedBlocks W n j L).getD i matDefault
        = placeWatermark (L.getD i matDefault) (W.atv ((j + i) / n) ((j + i) % n)) := by
  induction L with
  | nil => intro j i hi; simp at hi
  | cons B rest ih =>
    intro j i hi
    cases i with
    | zero => simp only [embedBlocks, List.getD_cons_zero, Nat.add_zero]
    | succ i' =>
      simp only [embedBlocks, List.getD_cons_succ]
      rw [ih (j + 1) i' (by simp only [List.length_cons] at hi; omega)]
      have e : j + (i' + 1) = (j + 1) + i' := by omega
      rw [e]

theorem smooth_gap : ∀ t, t < 27 → smooth235 (513 + t) = false := by decide

theorem smooth_above_512 (S : ℕ) (hsm : smooth235 S = true) (hS : 512 < S) : 540 ≤ S := by
  by_contra hcon
  have h1 : S - 513 < 27 := by omega
  have h2 := smooth_gap (S - 513) h1
  have e : 513 + (S - 513) = S := by omega
  rw [e] at h2
  rw [h2] at hsm
  exact Bool.noConfusion hsm

/-! ### Claim theorems -/

/-- Claim C1: the claim states that the coordinate perturbed by
`placeWatermark` is never `(0, 0)`, but on the all-zero block the first
`minMaxLoc` returns `(0, 0)`, masking it changes nothing, and the
second `minMaxLoc` returns `(0, 0)` again, so the DC term itself is
perturbed — contradicting the code's own comment that the DC component
is excluded. -/
theorem selectTarget_zero_block_dc :
    selectTarget zeroBlock2 = (0, 0) ∧
    (placeWatermark zeroBlock2 1).atv 0 0 = zeroBlock2.atv 0 0 + (1 / 2) * 1 := by
  constructor
  · decide
  · simp only [placeWatermark]
    rw [if_pos (by decide : ((0 : ℕ), (0 : ℕ)) = selectTarget zeroBlock2)]

/-- Claim C2: the claim (and the code's comment `Find highest magnitude
coefficients`) describes selection by maximum magnitude, but
`cv::minMaxLoc` selects by maximum signed value.  On the block
`[[-5, 1], [1, 1]]` the magnitude-based algorithm of the claim targets
`(0, 1)` while the code targets `(1, 0)`. -/
theorem selectTarget_value_not_magnitude :
    selectTarget negBlock = (1, 0) ∧
    selectTargetByMagnitude negBlock = (0, 1) ∧
    selectTarget negBlock ≠ selectTargetByMagnitude negBlock := by
  decide

/-- Claim C5: the claim states that on a fully zero block the selector
deterministically picks `(0, 1)`, the first non-DC cell in scan order;
the code does not fail and is deterministic, but it picks `(0, 0)`, the
DC term, and perturbs it. -/
theorem placeWatermark_zero_block_perturbs_dc :
    selectTarget zeroBlock8 = (0, 0) ∧
    selectTarget zeroBlock8 ≠ (0, 1) ∧
    (placeWatermark zeroBlock8 1).atv 0 0 = 1 / 2 ∧
    (placeWatermark zeroBlock8 1).atv 0 1 = 0 := by
  refine ⟨by decide, by decide, ?_, ?_⟩
  · simp only [placeWatermark]
    rw [if_pos (by decide : ((0 : ℕ), (0 : ℕ)) = selectTarget zeroBlock8)]
    norm_num [zeroBlock8]
  · simp only [placeWatermark]
    rw [if_neg (by decide : ¬ ((0 : ℕ), (1 : ℕ)) = selectTarget zeroBlock8)]
    rfl

/-- Claim C7: the claim states every failing input terminates with a
non-zero exit status.  The missing-argument path does return `-1`, but
the undecodable-image path and the unequal-padded-dimensions path both
call `exit(0)`, a success status; no output artifact is produced on any
of the three paths. -/
theorem runMain_failure_status_zero :
    (runMain 2 none).exitCode = 0 ∧
    (runMain 2 none).artifactsWritten = [] ∧
    (runMain 2 (some badAspectImage)).exitCode = 0 ∧
    (runMain 2 (some badAspectImage)).artifactsWritten = [] ∧
    (runMain 1 none).exitCode = -1 ∧
    (runMain 1 none).artifactsWritten = [] := by
  decide

/-- Claim C3: for every block and watermark value, `placeWatermark`
keeps the dimensions, adds `alpha * w` with `alpha = 0.5` exactly at
the selected target, leaves every other coefficient identical to the
input, and (for `w ≠ 0`) actually changes the target. -/
theorem placeWatermark_single_mutation (Vi : Mat) (w : ℚ) (hw : w ≠ 0) :
    (placeWatermark Vi w).rows = Vi.rows ∧
    (placeWatermark Vi w).cols = Vi.cols ∧
    (placeWatermark Vi w).atv (selectTarget Vi).1 (selectTarget Vi).2
      = Vi.atv (selectTarget Vi).1 (selectTarget Vi).2 + (1 / 2) * w ∧
    (placeWatermark Vi w).atv (selectTarget Vi).1 (selectTarget Vi).2
      ≠ Vi.atv (selectTarget Vi).1 (selectTarget Vi).2 ∧
    ∀ r c : ℕ, (r, c) ≠ selectTarget Vi →
      (placeWatermark Vi w).atv r c = Vi.atv r c := by
  have hat : (placeWatermark Vi w).atv (selectTarget Vi).1 (selectTarget Vi).2
      = Vi.atv (selectTarget Vi).1 (selectTarget Vi).2 + (1 / 2) * w := by
    simp [placeWatermark]
  refine ⟨rfl, rfl, hat, ?_, ?_⟩
  · rw [hat]
    intro hcontra
    apply hw
    linarith
  · intro r c hne
    simp only [placeWatermark]
    rw [if_neg hne]

/-- Witness for C3 at the block `[[0, 1], [2, 3]]` and `w = 1`. -/
theorem placeWatermark_single_mutation_witness :
    (1 : ℚ) ≠ 0 ∧
    ((placeWatermark witnessBlock 1).rows = witnessBlock.rows ∧
     (placeWatermark witnessBlock 1).cols = witnessBlock.cols ∧
     (placeWatermark witnessBlock 1).atv (selectTarget witnessBlock).1
         (selectTarget witnessBlock).2
       = witnessBlock.atv (selectTarget witnessBlock).1 (selectTarget witnessBlock).2
         + (1 / 2) * 1 ∧
     (placeWatermark witnessBlock 1).atv (selectTarget witnessBlock).1
         (selectTarget witnessBlock).2
       ≠ witnessBlock.atv (selectTarget witnessBlock).1 (selectTarget witnessBlock).2 ∧
     ∀ r c : ℕ, (r, c) ≠ selectTarget witnessBlock →
       (placeWatermark witnessBlock 1).atv r c = witnessBlock.atv r c) :=
  ⟨by decide, placeWatermark_single_mutation witnessBlock 1 (by decide)⟩

/-- Claim C8: for a square image of side `M` and block size `N` with
`0 < N ≤ M`, tiling produces exactly `(M / N) * (M / N)` blocks, each
of full size `N × N` — trailing partial regions are dropped, never
emitted as partial blocks. -/
theorem createBlocks_count (I : Mat) (N : ℕ) (hN : 0 < N) (hNM : N ≤ I.rows)
    (hsq : I.rows = I.cols) :
    ((createBlocks I N).getD []).length = (I.rows / N) * (I.rows / N) ∧
    ∀ k, k < (I.rows / N) * (I.rows / N) →
      (((createBlocks I N).getD []).getD k matDefault).rows = N ∧
      (((createBlocks I N).getD []).getD k matDefault).cols = N := by
  rw [createBlocks_eq I N hN hsq, Option.getD_some]
  constructor
  · exact gridList_length _ _ _
  · intro k hk
    rw [gridList_getD _ _ _ k hk]
    exact ⟨rfl, rfl⟩

/-- Witness for C8 at the 5×5 image with block size 2: four full 2×2
blocks, the trailing row and column of pixels dropped. -/
theorem createBlocks_count_witness :
    0 < 2 ∧ 2 ≤ matI5.rows ∧ matI5.rows = matI5.cols ∧
    (((createBlocks matI5 2).getD []).length = (matI5.rows / 2) * (matI5.rows / 2) ∧
     ∀ k, k < (matI5.rows / 2) * (matI5.rows / 2) →
       (((createBlocks matI5 2).getD []).getD k matDefault).rows = 2 ∧
       (((createBlocks matI5 2).getD []).getD k matDefault).cols = 2) :=
  ⟨by decide, by decide, rfl, createBlocks_count matI5 2 (by decide) (by decide) rfl⟩

/-- Claim C4: for a square image whose side is an exact multiple of the
block size, reassembling the tiled blocks with grid width
`I.rows / N` into a zero image of the original size reproduces the
image exactly.  (Tiling enumerates blocks with the column band outermost
and reassembly uses the same transposed convention, so the two
transpositions cancel.) -/
theorem tile_reassemble_identity (I : Mat) (N : ℕ) (hN : 0 < N) (hsq : I.rows = I.cols)
    (hdvd : N ∣ I.rows) :
    (assembleBlocks ((createBlocks I N).getD []) (zeroMat I.rows I.cols) (I.rows / N)).rows
      = I.rows ∧
    (assembleBlocks ((createBlocks I N).getD []) (zeroMat I.rows I.cols) (I.rows / N)).cols
      = I.cols ∧
    ∀ r, r < I.rows → ∀ c, c < I.cols →
      (assembleBlocks ((createBlocks I N).getD []) (zeroMat I.rows I.cols) (I.rows / N)).atv r c
        = I.atv r c := by
  have hgN : (I.rows / N) * N = I.rows := Nat.div_mul_cancel hdvd
  refine ⟨?_, ?_, ?_⟩
  · rw [assembleBlocks, assembleBlocksAux_rows]; rfl
  · rw [assembleBlocks, assembleBlocksAux_cols]; rfl
  · intro r hr c hc
    rw [createBlocks_eq I N hN hsq, Option.getD_some]
    set g := I.rows / N with hg
    have hgN2 : g * N = I.rows := hgN
    have hc' : c < I.rows := by omega
    have hrdN : r / N < g := by
      rw [Nat.div_lt_iff_lt_mul hN]
      omega
    have hcdN : c / N < g := by
      rw [Nat.div_lt_iff_lt_mul hN]
      omega
    have hIpos : 0 < I.rows := by omega
    have hg0 : 0 < g := Nat.div_pos (Nat.le_of_dvd hIpos hdvd) hN
    set k := (c / N) * g + r / N with hk
    have hklt : k < g * g :=
      calc k = (c / N) * g + r / N := rfl
        _ < (c / N) * g + g := by omega
        _ = ((c / N) + 1) * g := by ring
        _ ≤ g * g := Nat.mul_le_mul_right g hcdN
    set F := fun ci rj => subMat I (ci * N) (rj * N) N with hF
    have hlen : (gridList F g g).length = g * g := gridList_length F g g
    have hBk : (gridList F g g).getD k matDefault = subMat I ((k / g) * N) ((k % g) * N) N :=
      gridList_getD F g g k hklt
    have hkd : k / g = c / N :=
      div_eq_of_between g (c / N) k (hk ▸ Nat.le_add_right _ _)
        (hk ▸ Nat.add_lt_add_left hrdN _)
    have hkm : k % g = r / N := by
      have e := Nat.div_add_mod k g
      have e2 : (c / N) * g = g * (c / N) := Nat.mul_comm _ _
      rw [hkd] at e
      omega
    have hler : (r / N) * N ≤ r := Nat.div_mul_le_self r N
    have hlec : (c / N) * N ≤ c := Nat.div_mul_le_self c N
    have hltr : r < (r / N) * N + N := by
      have e := Nat.div_add_mod r N
      have em := Nat.mod_lt r hN
      have e2 : (r / N) * N = N * (r / N) := Nat.mul_comm _ _
      omega
    have hltc : c < (c / N) * N + N := by
      have e := Nat.div_add_mod c N
      have em := Nat.mod_lt c hN
      have e2 : (c / N) * N = N * (c / N) := Nat.mul_comm _ _
      omega
    have hin : inRect (((0 + k) / g) * ((gridList F g g).getD k matDefault).cols)
        (((0 + k) % g) * ((gridList F g g).getD k matDefault).rows)
        ((gridList F g g).getD k matDefault).cols
        ((gridList F g g).getD k matDefault).rows r c := by
      rw [hBk]
      simp only [subMat, Nat.zero_add]
      rw [hkd, hkm]
      exact ⟨hler, hltr, hlec, hltc⟩
    have huniq : ∀ j, j < (gridList F g g).length → j ≠ k →
        ¬ inRect (((0 + j) / g) * ((gridList F g g).getD j matDefault).cols)
            (((0 + j) % g) * ((gridList F g g).getD j matDefault).rows)
            ((gridList F g g).getD j matDefault).cols
            ((gridList F g g).getD j matDefault).rows r c := by
      intro j hj hjk hcontra
      rw [hlen] at hj
      rw [gridList_getD F g g j hj] at hcontra
      simp only [subMat, Nat.zero_add] at hcontra
      simp only [inRect] at hcontra
      have hrj : r / N = j % g := div_eq_of_between N (j % g) r hcontra.1 hcontra.2.1
      have hcj : c / N = j / g := div_eq_of_between N (j / g) c hcontra.2.2.1 hcontra.2.2.2
      apply hjk
      have ej := Nat.div_add_mod j g
      have e3 : (c / N) * g = (j / g) * g := by rw [hcj]
      have e4 : (j / g) * g = g * (j / g) := Nat.mul_comm _ _
      omega
    rw [assembleBlocks,
      assembleBlocksAux_writer g (gridList F g g) 0 (zeroMat I.rows I.cols) k r c
        (by rw [hlen]; exact hklt) hin huniq, hBk]
    simp only [subMat, Nat.zero_add]
    rw [hkd, hkm, Nat.add_sub_cancel' hler, Nat.add_sub_cancel' hlec]

/-- Witness for C4 at the 4×4 image with block size 2. -/
theorem tile_reassemble_identity_witness :
    0 < 2 ∧ matI4.rows = matI4.cols ∧ 2 ∣ matI4.rows ∧
    ((assembleBlocks ((createBlocks matI4 2).getD []) (zeroMat matI4.rows matI4.cols)
        (matI4.rows / 2)).rows = matI4.rows ∧
     (assembleBlocks ((createBlocks matI4 2).getD []) (zeroMat matI4.rows matI4.cols)
        (matI4.rows / 2)).cols = matI4.cols ∧
     ∀ r, r < matI4.rows → ∀ c, c < matI4.cols →
       (assembleBlocks ((createBlocks matI4 2).getD []) (zeroMat matI4.rows matI4.cols)
          (matI4.rows / 2)).atv r c = matI4.atv r c) :=
  ⟨by decide, rfl, by decide, tile_reassemble_identity matI4 2 (by decide) rfl (by decide)⟩

/-- Counterexample to claim C6: on the 2×2 image with pixel values
`[[0, 1], [2, 3]]` and block size 1, block 1 of the tiling is the pixel
at grid position (row 1, col 0) with value 2, not the row-major
(row 0, col 1) with value 1; and reassembling four distinct 1×1 blocks
with grid width 2 places block 1 at pixel (row 1, col 0), not
(row 0, col 1). -/
theorem tiling_row_major_counterexample :
    (((createBlocks matI2 1).getD []).getD 1 matDefault).atv 0 0 = matI2.atv 1 0 ∧
    matI2.atv 1 0 = 2 ∧ matI2.atv 0 1 = 1 ∧
    ¬ ((((createBlocks matI2 1).getD []).getD 1 matDefault).atv 0 0 = matI2.atv 0 1) ∧
    (assembleBlocks [unitMat 10, unitMat 11, unitMat 12, unitMat 13]
      (zeroMat 2 2) 2).atv 1 0 = 11 ∧
    ¬ ((assembleBlocks [unitMat 10, unitMat 11, unitMat 12, unitMat 13]
      (zeroMat 2 2) 2).atv 0 1 = 11) := by
  decide

/-- Claim C6 (amended): tiling enumerates blocks in column-major grid
order — the column index varies slowest — so block `k` of the tiling of
a square image covers the pixels at rows `(k % g) * N + u` and columns
`(k / g) * N + v`; and reassembly places block `k` at grid position
(row = `k % gridWidth`, col = `k / gridWidth`), its pixel region
starting at row `(k % gridWidth) * blockSize` and column
`(k / gridWidth) * blockSize`. -/
theorem tiling_column_major (I : Mat) (N : ℕ) (hN : 0 < N) (hsq : I.rows = I.cols) :
    (∀ k, k < (I.rows / N) * (I.rows / N) → ∀ u v : ℕ,
      (((createBlocks I N).getD []).getD k matDefault).atv u v
        = I.atv ((k % (I.rows / N)) * N + u) ((k / (I.rows / N)) * N + v)) ∧
    (∀ (U : List Mat) (J : Mat) (s gw : ℕ), 0 < s →
      (∀ j, j < U.length → (U.getD j matDefault).rows = s ∧ (U.getD j matDefault).cols = s) →
      ∀ k, k < U.length → ∀ r c : ℕ,
        (k % gw) * s ≤ r → r < (k % gw) * s + s →
        (k / gw) * s ≤ c → c < (k / gw) * s + s →
        (assembleBlocks U J gw).atv r c
          = (U.getD k matDefault).atv (r - (k % gw) * s) (c - (k / gw) * s)) := by
  constructor
  · intro k hk u v
    rw [createBlocks_eq I N hN hsq, Option.getD_some, gridList_getD _ _ _ k hk]
    simp only [subMat]
  · intro U J s gw hs hdims k hk r c h1 h2 h3 h4
    have hkdims := hdims k hk
    have hin : inRect (((0 + k) / gw) * (U.getD k matDefault).cols)
        (((0 + k) % gw) * (U.getD k matDefault).rows)
        (U.getD k matDefault).cols (U.getD k matDefault).rows r c := by
      simp only [Nat.zero_add, hkdims.1, hkdims.2]
      exact ⟨h1, h2, h3, h4⟩
    have huniq : ∀ j, j < U.length → j ≠ k →
        ¬ inRect (((0 + j) / gw) * (U.getD j matDefault).cols)
            (((0 + j) % gw) * (U.getD j matDefault).rows)
            (U.getD j matDefault).cols (U.getD j matDefault).rows r c := by
      intro j hj hjk hcontra
      have hjdims := hdims j hj
      simp only [Nat.zero_add, hjdims.1, hjdims.2] at hcontra
      simp only [inRect] at hcontra
      have hrj : r / s = j % gw := div_eq_of_between s (j % gw) r hcontra.1 hcontra.2.1
      have hrk : r / s = k % gw := div_eq_of_between s (k % gw) r h1 h2
      have hcj : c / s = j / gw := div_eq_of_between s (j / gw) c hcontra.2.2.1 hcontra.2.2.2
      have hck : c / s = k / gw := div_eq_of_between s (k / gw) c h3 h4
      apply hjk
      have ej := Nat.div_add_mod j gw
      have ek := Nat.div_add_mod k gw
      have e5 : j / gw = k / gw := by omega
      have e6 : gw * (j / gw) = gw * (k / gw) := by rw [e5]
      omega
    rw [assembleBlocks, assembleBlocksAux_writer gw U 0 J k r c hk hin huniq]
    simp only [Nat.zero_add, hkdims.1, hkdims.2]

/-- Witness for C6 (amended) at the 4×4 image with block size 2. -/
theorem tiling_column_major_witness :
    0 < 2 ∧ matI4.rows = matI4.cols ∧
    ((∀ k, k < (matI4.rows / 2) * (matI4.rows / 2) → ∀ u v : ℕ,
       (((createBlocks matI4 2).getD []).getD k matDefault).atv u v
         = matI4.atv ((k % (matI4.rows / 2)) * 2 + u) ((k / (matI4.rows / 2)) * 2 + v)) ∧
     (∀ (U : List Mat) (J : Mat) (s gw : ℕ), 0 < s →
       (∀ j, j < U.length →
         (U.getD j matDefault).rows = s ∧ (U.getD j matDefault).cols = s) →
       ∀ k, k < U.length → ∀ r c : ℕ,
         (k % gw) * s ≤ r → r < (k % gw) * s + s →
         (k / gw) * s ≤ c → c < (k / gw) * s + s →
         (assembleBlocks U J gw).atv r c
           = (U.getD k matDefault).atv (r - (k % gw) * s) (c - (k / gw) * s))) :=
  ⟨by decide, rfl, tiling_column_major matI4 2 (by decide) rfl⟩

/-- Claim C9: the three reassembly destinations of `main` are fixed
512×512 zero matrices independent of the padded input size; for every
reachable padded size (a `2^p * 3^q * 5^r` number) above 512, block 63
exists and its copy region extends past row 512 of the destination; and
any pixel outside all written block regions keeps the value 0 of the
zero-initialized destination. -/
theorem fixed_destinations_and_bounds :
    (IdctDest.rows = 512 ∧ IdctDest.cols = 512 ∧ IdDest.rows = 512 ∧ IdDest.cols = 512 ∧
      IcdDest.rows = 512 ∧ IcdDest.cols = 512 ∧
      (∀ r c : ℕ, IdctDest.atv r c = 0) ∧ (∀ r c : ℕ, IdDest.atv r c = 0) ∧
      (∀ r c : ℕ, IcdDest.atv r c = 0)) ∧
    (∀ S : ℕ, smooth235 S = true → 512 < S →
      ∀ dct : Mat → Mat, (∀ m, (dct m).rows = m.rows ∧ (dct m).cols = m.cols) →
      ∀ I : Mat, I.rows = S → I.cols = S →
        63 < (mainVdct dct I).length ∧
        IdctDest.rows < (63 % 8) * ((mainVdct dct I).getD 63 matDefault).rows
          + ((mainVdct dct I).getD 63 matDefault).rows) ∧
    (∀ (V : List Mat) (gw r c : ℕ),
      (∀ k, k < V.length →
        ¬ inRect ((k / gw) * (V.getD k matDefault).cols)
                 ((k % gw) * (V.getD k matDefault).rows)
                 (V.getD k matDefault).cols (V.getD k matDefault).rows r c) →
      (assembleBlocks V (zeroMat 512 512) gw).atv r c = 0) := by
  refine ⟨⟨rfl, rfl, rfl, rfl, rfl, rfl, fun _ _ => rfl, fun _ _ => rfl, fun _ _ => rfl⟩,
    ?_, ?_⟩
  · intro S hsm hS dct hd I hrI hcI
    have h540 := smooth_above_512 S hsm hS
    have hN : 0 < mainBlockSide I := by
      simp only [mainBlockSide]
      omega
    have hsq : I.rows = I.cols := by rw [hrI, hcI]
    have hMB : mainBlocks I
        = gridList (fun ci rj => subMat I (ci * mainBlockSide I) (rj * mainBlockSide I)
            (mainBlockSide I)) (I.rows / mainBlockSide I) (I.rows / mainBlockSide I) := by
      rw [mainBlocks, createBlocks_eq I (mainBlockSide I) hN hsq, Option.getD_some]
    have hg8 : 8 ≤ I.rows / mainBlockSide I := by
      rw [Nat.le_div_iff_mul_le hN]
      simp only [mainBlockSide]
      omega
    have hmul : 8 * 8 ≤ (I.rows / mainBlockSide I) * (I.rows / mainBlockSide I) :=
      Nat.mul_le_mul hg8 hg8
    have hlen63 : 63 < (mainBlocks I).length := by
      rw [hMB, gridList_length]
      omega
    have hVd : (mainVdct dct I).getD 63 matDefault
        = dct ((mainBlocks I).getD 63 matDefault) := by
      rw [mainVdct]
      exact getD_map_of_lt dct (mainBlocks I) 63 hlen63
    have hrows : ((mainVdct dct I).getD 63 matDefault).rows = mainBlockSide I := by
      rw [hVd, (hd ((mainBlocks I).getD 63 matDefault)).1, hMB,
        gridList_getD _ _ _ 63 (by omega)]
      rfl
    constructor
    · rw [mainVdct, List.length_map]
      exact hlen63
    · rw [hrows]
      have h512 : IdctDest.rows = 512 := rfl
      rw [h512]
      simp only [mainBlockSide]
      omega
  · intro V gw r c h
    rw [assembleBlocks]
    have h' : ∀ k, k < V.length →
        ¬ inRect (((0 + k) / gw) * (V.getD k matDefault).cols)
            (((0 + k) % gw) * (V.getD k matDefault).rows)
            (V.getD k matDefault).cols (V.getD k matDefault).rows r c := by
      intro k hk
      simpa only [Nat.zero_add] using h k hk
    rw [assembleBlocksAux_untouched gw V 0 (zeroMat 512 512) r c h']
    rfl

/-- Witness for C9 part 2 at the constant 540×540 image (540 is the
smallest optimal DFT size above 512), with the identity in place of the
DCT. -/
theorem fixed_destinations_and_bounds_witness :
    smooth235 540 = true ∧ 512 < 540 ∧
    (63 < (mainVdct id matI540).length ∧
     IdctDest.rows < (63 % 8) * ((mainVdct id matI540).getD 63 matDefault).rows
       + ((mainVdct id matI540).getD 63 matDefault).rows) :=
  ⟨by decide, by decide,
    fixed_destinations_and_bounds.2.1 540 (by decide) (by decide) id
      (fun m => ⟨rfl, rfl⟩) matI540 rfl rfl⟩

/-- Counterexample to claim C10: the 9×9 image (9 is an optimal DFT
size, hence a reachable padded input) yields `N = 9 / 8 = 1` and a 9×9
grid of 81 blocks, not a fixed 8×8 grid of 64. -/
theorem grid_not_8x8_counterexample :
    mainBlockSide matI9 = 1 ∧
    (mainBlocks matI9).length = 81 ∧
    ¬ ((mainBlocks matI9).length = 8 * 8) := by
  decide

/-- Claim C10 (amended): for a padded square input of side `S ≥ 8` with
`S % 8 < S / 8` (in particular every `S ≥ 64`, including 512), the
pipeline tiles the image into exactly `8 * 8` blocks of side `S / 8`
(`n = 8` is the grid width per axis, not the block side), and the
embedding loop gives block `i` the watermark value at position
`(i / 8, i % 8)`. -/
theorem grid_8x8_when_remainder_small (I : Mat) (S : ℕ) (hrI : I.rows = S)
    (hcI : I.cols = S) (h8 : 8 ≤ S) (hrem : S % 8 < S / 8) :
    (mainBlocks I).length = 8 * 8 ∧
    (∀ k, k < 8 * 8 →
      ((mainBlocks I).getD k matDefault).rows = S / 8 ∧
      ((mainBlocks I).getD k matDefault).cols = S / 8) ∧
    (∀ (Wm : Mat) (L : List Mat) (i : ℕ), i < L.length →
      (embedBlocks Wm 8 0 L).getD i matDefault
        = placeWatermark (L.getD i matDefault) (Wm.atv (i / 8) (i % 8))) := by
  have hN : 0 < mainBlockSide I := by
    simp only [mainBlockSide]
    omega
  have hsq : I.rows = I.cols := by rw [hrI, hcI]
  have hg : I.rows / mainBlockSide I = 8 := by
    simp only [mainBlockSide]
    rw [hrI]
    exact div_eq_of_between (S / 8) 8 S (by omega) (by omega)
  have hMB : mainBlocks I
      = gridList (fun ci rj => subMat I (ci * mainBlockSide I) (rj * mainBlockSide I)
          (mainBlockSide I)) (I.rows / mainBlockSide I) (I.rows / mainBlockSide I) := by
    rw [mainBlocks, createBlocks_eq I (mainBlockSide I) hN hsq, Option.getD_some]
  refine ⟨?_, ?_, ?_⟩
  · rw [hMB, gridList_length, hg]
  · intro k hk
    rw [hMB, hg, gridList_getD _ _ _ k hk]
    constructor
    · show mainBlockSide I = S / 8
      simp only [mainBlockSide]
      rw [hrI]
    · show mainBlockSide I = S / 8
      simp only [mainBlockSide]
      rw [hrI]
  · intro Wm L i hi
    have h := embedBlocks_getD Wm 8 L 0 i hi
    simpa only [Nat.zero_add] using h

/-- Witness for C10 (amended) at the 16×16 image: 64 blocks of side 2. -/
theorem grid_8x8_when_remainder_small_witness :
    matI16.rows = 16 ∧ matI16.cols = 16 ∧ 8 ≤ 16 ∧ 16 % 8 < 16 / 8 ∧
    ((mainBlocks matI16).length = 8 * 8 ∧
     (∀ k, k < 8 * 8 →
       ((mainBlocks matI16).getD k matDefault).rows = 16 / 8 ∧
       ((mainBlocks matI16).getD k matDefault).cols = 16 / 8) ∧
     (∀ (Wm : Mat) (L : List Mat) (i : ℕ), i < L.length →
       (embedBlocks Wm 8 0 L).getD i matDefault
         = placeWatermark (L.getD i matDefault) (Wm.atv (i / 8) (i % 8)))) :=
  ⟨rfl, rfl, by decide, by decide,
    grid_8x8_when_remainder_small matI16 16 rfl rfl (by decide) (by decide)⟩
